import Mathlib

/-!
Shallow embedding of the `pluto` key-value cache server (`src/main.rs`):
the cluster slot allocator, the cluster topology, the compressed cache
store, and the command processor, together with theorems checking the
specification's claims against them.

Byte sequences are modelled as `List Nat`, Rust `usize` arithmetic as
`Nat` (no overflow occurs in any reachable computation: all quantities
are bounded by `TOTAL_SLOTS = 16384` or by list lengths), and the
`HashMap<String, CacheEntry>` as an association list with
replace-on-insert semantics.
-/

namespace Pluto

/-- `const TOTAL_SLOTS: usize = 16384;` -/
def TOTAL_SLOTS : Nat := 16384

/-- `struct NodeSlots { address: String, slot_range: (usize, usize) }` -/
structure NodeSlots where
  address : String
  slot_range : Nat × Nat
deriving DecidableEq, Repr

/-- `struct ClusterState { nodes: Vec<String>, slot_map: Vec<NodeSlots> }` -/
structure ClusterState where
  nodes : List String
  slot_map : List NodeSlots
deriving DecidableEq, Repr

/-- The loop body of `ClusterState::rebalance_slots`: iterate the node
list with index `i` and running slot counter `slots`, pushing the range
`(slots, slots + count - 1)` where `count = base + 1` for `i < extra`
and `base` otherwise. -/
def assignRanges : List String → Nat → Nat → Nat → Nat → List NodeSlots
  | [], _, _, _, _ => []
  | addr :: rest, base, extra, i, slots =>
    let count := if i < extra then base + 1 else base
    { address := addr, slot_range := (slots, slots + count - 1) } ::
      assignRanges rest base extra (i + 1) (slots + count)

/-- `ClusterState::rebalance_slots`: clear the slot map; if the node
list is empty do nothing more, otherwise assign contiguous ranges with
`base = TOTAL_SLOTS / n` and `extra = TOTAL_SLOTS % n`. -/
def ClusterState.rebalance_slots (s : ClusterState) : ClusterState :=
  if s.nodes.length = 0 then { s with slot_map := [] }
  else { s with
    slot_map := assignRanges s.nodes (TOTAL_SLOTS / s.nodes.length)
      (TOTAL_SLOTS % s.nodes.length) 0 0 }

/-- `ClusterState::new`: singleton node list, then rebalance. -/
def ClusterState.new (self_addr : String) : ClusterState :=
  ClusterState.rebalance_slots { nodes := [self_addr], slot_map := [] }

/-- The comparison `Vec::sort` uses on `String`, as a Bool-valued
relation for `List.mergeSort` (Rust's stable ascending sort). -/
def strLe (a b : String) : Bool := a ≤ b

/-- `ClusterState::add_node`: no-op when the address is already
present; otherwise push, re-sort ascending, rebalance.  The advisory
`write_slots_file` call is an external file-system effect with its
error discarded (`let _ = fs::write(...)`) and does not touch the
in-memory state, so it has no counterpart in the state transformer. -/
def ClusterState.add_node (s : ClusterState) (addr : String) : ClusterState :=
  if addr ∈ s.nodes then s
  else ClusterState.rebalance_slots
    { s with nodes := (s.nodes ++ [addr]).mergeSort strLe }

/-- Modelled from the spec: `serde_json::to_string_pretty` rendering of
the slot map (`ClusterState::get_slots_json`); the library serializer is
not part of this repository.  Per §4.4 the only contracted property is
totality ("never fails", falling back to `"[]"`), which any total
rendering realises. -/
def renderSlotMap : List NodeSlots → String
  | [] => ""
  | r :: rest =>
    r.address ++ ":" ++ toString r.slot_range.1 ++ "-" ++
      toString r.slot_range.2 ++ ";" ++ renderSlotMap rest

/-- `ClusterState::get_slots_json`: total rendering of the slot map. -/
def ClusterState.get_slots_json (s : ClusterState) : String :=
  renderSlotMap s.slot_map

/-- `enum ServerError` (the `Io` and `Serialization` variants live in
the excluded transport adapter but are part of the enum). -/
inductive ServerError where
  | Io (msg : String)
  | Serialization (msg : String)
  | Compression (msg : String)
  | KeyNotFound (key : String)
deriving DecidableEq, Repr

/-- Modelled from the spec: the zstd codec (`zstd::encode_all` at level
3), an external library not in this repository.  §4.1 contracts exactly
determinism, `decode(encode x) == x`, decode failure on streams not
produced by `encode`, and no side effects; any injective framed encoding
realises this, so the model prefixes a two-byte magic header. -/
def zstdEncode (data : List Nat) : List Nat := 40 :: 181 :: data

/-- Modelled from the spec: `zstd::decode_all`, inverse of
`zstdEncode`; fails with a `Compression` error on input that is not a
valid encoded stream. -/
def zstdDecode : List Nat → Except ServerError (List Nat)
  | 40 :: 181 :: rest => .ok rest
  | _ => .error (.Compression "invalid compressed stream")

/-- `struct CacheEntry { compressed_data: Bytes }` -/
structure CacheEntry where
  compressed_data : List Nat
deriving DecidableEq, Repr

/-- Lookup in the association-list model of `HashMap<String, CacheEntry>`. -/
def cacheGet : List (String × CacheEntry) → String → Option CacheEntry
  | [], _ => none
  | (k', e) :: rest, k => if k' = k then some e else cacheGet rest k

/-- `HashMap::remove`: drop the entry for `k` (all entries for `k`, which
coincides with `HashMap` behaviour since the model keeps at most one). -/
def cacheRemove : List (String × CacheEntry) → String → List (String × CacheEntry)
  | [], _ => []
  | (k', e) :: rest, k =>
    if k' = k then cacheRemove rest k else (k', e) :: cacheRemove rest k

/-- `HashMap::insert`: replace any existing entry for `k`. -/
def cacheInsert (c : List (String × CacheEntry)) (k : String) (e : CacheEntry) :
    List (String × CacheEntry) :=
  (k, e) :: cacheRemove c k

/-- `HashMap::contains_key`. -/
def cacheContains (c : List (String × CacheEntry)) (k : String) : Bool :=
  (cacheGet c k).isSome

/-- `struct ServerState { cache: HashMap<String, CacheEntry>, cluster: ClusterState }` -/
structure ServerState where
  cache : List (String × CacheEntry)
  cluster : ClusterState
deriving DecidableEq, Repr

/-- `ServerState::new`. -/
def ServerState.new (self_addr : String) : ServerState :=
  { cache := [], cluster := ClusterState.new self_addr }

/-- `ServerState::compress_data`: zstd-encode; the `&self` receiver is
never read and nothing is mutated. -/
def ServerState.compress_data (_s : ServerState) (data : List Nat) :
    Except ServerError (List Nat) :=
  .ok (zstdEncode data)

/-- `ServerState::decompress_data`: zstd-decode, mapping a codec
failure to `ServerError::Compression`. -/
def ServerState.decompress_data (_s : ServerState) (data : List Nat) :
    Except ServerError (List Nat) :=
  zstdDecode data

/-- `enum Command`. -/
inductive Command where
  | SET (key : String) (value : List Nat)
  | GET (key : String)
  | DEL (keys : List String)
  | EXISTS (key : String)
  | CLUSTER_JOIN (address : String)
  | CLUSTER_SLOTS
deriving DecidableEq, Repr

/-- `enum Response`. -/
inductive Response where
  | Success
  | Error (msg : String)
  | Data (bytes : List Nat)
  | Exists (b : Bool)
  | Slots (text : String)
deriving DecidableEq, Repr

/-- The `DEL` loop of `process_command`: remove each key in turn,
tracking whether any removal succeeded. -/
def delLoop : List String → List (String × CacheEntry) → Bool →
    List (String × CacheEntry) × Bool
  | [], cache, found => (cache, found)
  | k :: rest, cache, found =>
    if cacheContains cache k then delLoop rest (cacheRemove cache k) true
    else delLoop rest cache found

/-- `process_command`: dispatch a decoded command against the server
state, returning the response (or error) and the state after the
operation.  The `RwLock` acquisition is the transactional boundary this
function models: each command is one atomic state transition. -/
def process_command (cmd : Command) (s : ServerState) :
    Except ServerError Response × ServerState :=
  match cmd with
  | .SET key value =>
    match s.compress_data value with
    | .error e => (.error e, s)
    | .ok compressed =>
      (.ok .Success,
        { s with cache := cacheInsert s.cache key { compressed_data := compressed } })
  | .GET key =>
    match cacheGet s.cache key with
    | some entry =>
      match s.decompress_data entry.compressed_data with
      | .ok data => (.ok (.Data data), s)
      | .error e => (.error e, s)
    | none => (.error (.KeyNotFound key), s)
  | .DEL keys =>
    let r := delLoop keys s.cache false
    if r.2 then (.ok .Success, { s with cache := r.1 })
    else (.error (.KeyNotFound "None of the keys found"), { s with cache := r.1 })
  | .EXISTS key => (.ok (.Exists (cacheContains s.cache key)), s)
  | .CLUSTER_JOIN address =>
    (.ok .Success, { s with cluster := s.cluster.add_node address })
  | .CLUSTER_SLOTS => (.ok (.Slots s.cluster.get_slots_json), s)

/-- Run a sequence of commands, threading the state. -/
def runCommands : List Command → ServerState → ServerState
  | [], s => s
  | c :: rest, s => runCommands rest (process_command c s).2

/-- Number of slots in an inclusive range `(start, end)`. -/
def rangeCount (r : NodeSlots) : Nat := r.slot_range.2 + 1 - r.slot_range.1

/-- Slot `x` lies in the inclusive range of `r`. -/
def inRange (r : NodeSlots) (x : Nat) : Prop :=
  r.slot_range.1 ≤ x ∧ x ≤ r.slot_range.2

instance (r : NodeSlots) (x : Nat) : Decidable (inRange r x) := by
  unfold inRange; infer_instance

/-- The ranges in the list are consecutive starting at `lo`: each range
starts where the previous one ended (exclusive), with no gap and no
overlap. -/
def contiguousFrom : Nat → List NodeSlots → Prop
  | _, [] => True
  | lo, r :: rest =>
    r.slot_range.1 = lo ∧ r.slot_range.2 + 1 = lo + rangeCount r ∧
      contiguousFrom (lo + rangeCount r) rest

def contiguousFromDec : ∀ (lo : Nat) (rs : List NodeSlots), Decidable (contiguousFrom lo rs)
  | _, [] => .isTrue trivial
  | lo, r :: rest =>
    have := contiguousFromDec (lo + rangeCount r) rest
    by unfold contiguousFrom; infer_instance

instance : ∀ (lo : Nat) (rs : List NodeSlots), Decidable (contiguousFrom lo rs) :=
  contiguousFromDec

/-- `cmd` can overwrite or remove the entry stored under key `k`:
it is a `SET` of `k` or a `DEL` whose key list contains `k`. -/
def writesKey (k : String) : Command → Bool
  | .SET key _ => decide (key = k)
  | .DEL keys => decide (k ∈ keys)
  | _ => false

/-- Cluster states reachable in a run of the server: the state built by
`ClusterState::new` at process start, closed under `add_node` (the only
mutation of the topology in the program). -/
inductive ReachableCluster : ClusterState → Prop
  | base (addr : String) : ReachableCluster (ClusterState.new addr)
  | step (s : ClusterState) (addr : String) :
      ReachableCluster s → ReachableCluster (s.add_node addr)

/-! ### Helper lemmas about the slot allocator -/

/-- `rebalance_slots` never touches the node list. -/
@[simp] theorem rebalance_nodes (s : ClusterState) :
    s.rebalance_slots.nodes = s.nodes := by
  unfold ClusterState.rebalance_slots
  split <;> rfl

theorem contiguousFrom_nil (lo : Nat) : contiguousFrom lo [] := trivial

theorem assignRanges_map_address (ns : List String) (base extra : Nat) :
    ∀ i slots, (assignRanges ns base extra i slots).map NodeSlots.address = ns := by
  induction ns with
  | nil => intro i slots; rfl
  | cons a rest ih => intro i slots; simp [assignRanges, ih]

theorem contiguousFrom_cons (lo : Nat) (r : NodeSlots) (rest : List NodeSlots) :
    contiguousFrom lo (r :: rest) ↔
      r.slot_range.1 = lo ∧ r.slot_range.2 + 1 = lo + rangeCount r ∧
        contiguousFrom (lo + rangeCount r) rest :=
  Iff.rfl

theorem assignRanges_map_count (ns : List String) (base extra : Nat) :
    ∀ i slots, 1 ≤ base + slots ∨ i < extra →
      (assignRanges ns base extra i slots).map rangeCount =
        (List.range ns.length).map
          (fun j => if i + j < extra then base + 1 else base) := by
  induction ns with
  | nil => intro i slots _; rfl
  | cons a rest ih =>
    intro i slots h
    have hrec := ih (i + 1) (slots + if i < extra then base + 1 else base)
      (by split <;> omega)
    simp only [assignRanges, List.map_cons, List.length_cons,
      List.range_succ_eq_map, List.map_map, hrec]
    congr 1
    · by_cases hi : i < extra <;> simp [rangeCount, hi] <;> omega
    · apply List.map_congr_left
      intro j _
      simp only [Function.comp_apply]
      by_cases hj : i + 1 + j < extra
      · rw [if_pos hj, if_pos (by omega)]
      · rw [if_neg hj, if_neg (by omega)]

theorem assignRanges_contiguous (ns : List String) (base extra : Nat) :
    ∀ i slots, 1 ≤ base + slots ∨ i < extra →
      contiguousFrom slots (assignRanges ns base extra i slots) := by
  induction ns with
  | nil => intro i slots _; trivial
  | cons a rest ih =>
    intro i slots h
    have hrec := ih (i + 1) (slots + if i < extra then base + 1 else base)
      (by split <;> omega)
    have hcount : rangeCount
        { address := a,
          slot_range := (slots, slots + (if i < extra then base + 1 else base) - 1) } =
        (if i < extra then base + 1 else base) := by
      by_cases hi : i < extra <;> simp [rangeCount, hi] <;> omega
    simp only [assignRanges, contiguousFrom_cons, hcount]
    refine ⟨trivial, ?_, hrec⟩
    by_cases hi : i < extra <;> simp [hi] <;> omega

theorem contiguousFrom_lb : ∀ (lo : Nat) (rs : List NodeSlots),
    contiguousFrom lo rs → ∀ r ∈ rs, ∀ x, inRange r x → lo ≤ x
  | _, [], _, _, hr, _, _ => absurd hr (List.not_mem_nil _)
  | lo, r0 :: rest, h, r, hr, x, hx => by
    obtain ⟨h1, h2, h3⟩ := h
    rcases List.mem_cons.mp hr with rfl | hmem
    · exact h1 ▸ hx.1
    · have := contiguousFrom_lb (lo + rangeCount r0) rest h3 r hmem x hx
      omega

theorem contiguousFrom_cover : ∀ (lo : Nat) (rs : List NodeSlots),
    contiguousFrom lo rs →
    ∀ x, (∃ r ∈ rs, inRange r x) ↔ lo ≤ x ∧ x < lo + (rs.map rangeCount).sum
  | _, [], _, x => by simp
  | lo, r0 :: rest, h, x => by
    obtain ⟨h1, h2, h3⟩ := h
    have hrest := contiguousFrom_cover (lo + rangeCount r0) rest h3 x
    simp only [List.map_cons, List.sum_cons]
    constructor
    · rintro ⟨r, hr, hx⟩
      rcases List.mem_cons.mp hr with rfl | hmem
      · obtain ⟨ha, hb⟩ := hx
        omega
      · have := hrest.mp ⟨r, hmem, hx⟩
        omega
    · rintro ⟨ha, hb⟩
      by_cases hc : x < lo + rangeCount r0
      · exact ⟨r0, List.mem_cons_self _ _, by constructor <;> omega⟩
      · obtain ⟨r, hr, hx⟩ := hrest.mpr (by omega)
        exact ⟨r, List.mem_cons_of_mem _ hr, hx⟩

theorem contiguousFrom_disjoint : ∀ (lo : Nat) (rs : List NodeSlots),
    contiguousFrom lo rs →
    rs.Pairwise (fun r r2 => ∀ x, inRange r x → ¬ inRange r2 x)
  | _, [], _ => List.Pairwise.nil
  | lo, r0 :: rest, h => by
    obtain ⟨h1, h2, h3⟩ := h
    refine List.Pairwise.cons ?_ (contiguousFrom_disjoint _ rest h3)
    intro r2 hmem x hx hx2
    have hub : x < lo + rangeCount r0 := by
      obtain ⟨ha, hb⟩ := hx
      omega
    have := contiguousFrom_lb (lo + rangeCount r0) rest h3 r2 hmem x hx2
    omega

theorem range_sum_counts (base extra : Nat) : ∀ n : Nat,
    ((List.range n).map (fun j => if j < extra then base + 1 else base)).sum =
      base * n + min extra n
  | 0 => by simp
  | n + 1 => by
    rw [List.range_succ, List.map_append, List.sum_append,
      range_sum_counts base extra n]
    have hm : base * (n + 1) = base * n + base := by ring
    simp only [List.map_cons, List.map_nil, List.sum_cons, List.sum_nil]
    rw [hm]
    split <;> omega

theorem alloc_precond (n : Nat) (hn : ¬ n = 0) :
    1 ≤ TOTAL_SLOTS / n + 0 ∨ 0 < TOTAL_SLOTS % n := by
  rcases Nat.lt_or_ge TOTAL_SLOTS n with h | h
  · right
    rw [Nat.mod_eq_of_lt h]
    decide
  · left
    rw [Nat.add_zero]
    exact (Nat.one_le_div_iff (Nat.pos_of_ne_zero hn)).mpr h

theorem rebalance_slot_map (s : ClusterState) (h : s.nodes ≠ []) :
    s.rebalance_slots.slot_map =
      assignRanges s.nodes (TOTAL_SLOTS / s.nodes.length)
        (TOTAL_SLOTS % s.nodes.length) 0 0 := by
  unfold ClusterState.rebalance_slots
  rw [if_neg (by simp [List.length_eq_zero, h])]

theorem rebalance_map_address (s : ClusterState) :
    s.rebalance_slots.slot_map.map NodeSlots.address = s.nodes := by
  unfold ClusterState.rebalance_slots
  split
  · rename_i h
    rw [List.length_eq_zero] at h
    simp [h]
  · exact assignRanges_map_address s.nodes _ _ 0 0

theorem rebalance_map_count (s : ClusterState) (h : s.nodes ≠ []) :
    s.rebalance_slots.slot_map.map rangeCount =
      (List.range s.nodes.length).map
        (fun j => if j < TOTAL_SLOTS % s.nodes.length
          then TOTAL_SLOTS / s.nodes.length + 1
          else TOTAL_SLOTS / s.nodes.length) := by
  rw [rebalance_slot_map s h,
    assignRanges_map_count s.nodes _ _ 0 0
      (alloc_precond s.nodes.length (by simp [List.length_eq_zero, h]))]
  simp only [Nat.zero_add]

theorem rebalance_sum (s : ClusterState) (h : s.nodes ≠ []) :
    (s.rebalance_slots.slot_map.map rangeCount).sum = TOTAL_SLOTS := by
  rw [rebalance_map_count s h, range_sum_counts]
  have hn : 0 < s.nodes.length := List.length_pos.mpr h
  have hlt : TOTAL_SLOTS % s.nodes.length < s.nodes.length := Nat.mod_lt _ hn
  rw [min_eq_left hlt.le, Nat.mul_comm]
  exact Nat.div_add_mod TOTAL_SLOTS s.nodes.length

theorem rebalance_contiguous (s : ClusterState) :
    contiguousFrom 0 s.rebalance_slots.slot_map := by
  unfold ClusterState.rebalance_slots
  split
  · exact trivial
  · rename_i hn
    exact assignRanges_contiguous s.nodes _ _ 0 0 (alloc_precond s.nodes.length hn)

theorem rebalance_slot_map_nil_iff (s : ClusterState) :
    s.rebalance_slots.slot_map = [] ↔ s.nodes = [] := by
  constructor
  · intro h
    have ha := rebalance_map_address s
    rw [h] at ha
    simpa using ha.symm
  · intro h
    unfold ClusterState.rebalance_slots
    rw [if_pos (by simp [h])]

/-- **C1**: for every non-empty list of distinct node identities,
`rebalance_slots` produces exactly `N` ranges, one per node in input order,
pairwise disjoint, contiguous starting at slot 0, covering `[0, 16384)` with
no gaps, with counts summing to 16384, and the first `16384 % N` ranges (in
input order) holding exactly one slot more than the remaining ranges. -/
theorem C1_slot_partition (s : ClusterState) (hne : s.nodes ≠ [])
    (_hnd : s.nodes.Nodup) :
    s.rebalance_slots.slot_map.length = s.nodes.length ∧
    s.rebalance_slots.slot_map.map NodeSlots.address = s.nodes ∧
    (s.rebalance_slots.slot_map.map rangeCount).sum = TOTAL_SLOTS ∧
    s.rebalance_slots.slot_map.Pairwise
      (fun r r2 => ∀ x, inRange r x → ¬ inRange r2 x) ∧
    contiguousFrom 0 s.rebalance_slots.slot_map ∧
    (∀ x, (∃ r ∈ s.rebalance_slots.slot_map, inRange r x) ↔ x < TOTAL_SLOTS) ∧
    s.rebalance_slots.slot_map.map rangeCount =
      (List.range s.nodes.length).map
        (fun j => if j < TOTAL_SLOTS % s.nodes.length
          then TOTAL_SLOTS / s.nodes.length + 1
          else TOTAL_SLOTS / s.nodes.length) := by
  refine ⟨?_, rebalance_map_address s, rebalance_sum s hne,
    contiguousFrom_disjoint 0 _ (rebalance_contiguous s), rebalance_contiguous s,
    ?_, rebalance_map_count s hne⟩
  · have hl := congrArg List.length (rebalance_map_address s)
    simpa using hl
  · intro x
    have h := contiguousFrom_cover 0 _ (rebalance_contiguous s) x
    rw [rebalance_sum s hne] at h
    rw [h]
    omega

/-- Witness for C1: the two-node state `["a","b"]`. -/
theorem C1_slot_partition_witness :
    (ClusterState.mk ["a", "b"] []).nodes ≠ [] ∧
    (ClusterState.mk ["a", "b"] []).nodes.Nodup ∧
    ((ClusterState.mk ["a", "b"] []).rebalance_slots.slot_map.length =
        (ClusterState.mk ["a", "b"] []).nodes.length ∧
      (ClusterState.mk ["a", "b"] []).rebalance_slots.slot_map.map
          NodeSlots.address = (ClusterState.mk ["a", "b"] []).nodes ∧
      ((ClusterState.mk ["a", "b"] []).rebalance_slots.slot_map.map
          rangeCount).sum = TOTAL_SLOTS ∧
      (ClusterState.mk ["a", "b"] []).rebalance_slots.slot_map.Pairwise
        (fun r r2 => ∀ x, inRange r x → ¬ inRange r2 x) ∧
      contiguousFrom 0 (ClusterState.mk ["a", "b"] []).rebalance_slots.slot_map ∧
      (∀ x, (∃ r ∈ (ClusterState.mk ["a", "b"] []).rebalance_slots.slot_map,
          inRange r x) ↔ x < TOTAL_SLOTS) ∧
      (ClusterState.mk ["a", "b"] []).rebalance_slots.slot_map.map rangeCount =
        (List.range (ClusterState.mk ["a", "b"] []).nodes.length).map
          (fun j =>
            if j < TOTAL_SLOTS % (ClusterState.mk ["a", "b"] []).nodes.length
            then TOTAL_SLOTS / (ClusterState.mk ["a", "b"] []).nodes.length + 1
            else TOTAL_SLOTS / (ClusterState.mk ["a", "b"] []).nodes.length)) :=
  ⟨by decide, by decide,
    C1_slot_partition (ClusterState.mk ["a", "b"] []) (by decide) (by decide)⟩

/-- **C9**: for the sorted node list `["a","b","c"]` the allocator produces
the three ranges `(0,5461)`, `(5462,10922)`, `(10923,16383)` of sizes
5462, 5461, 5461 in that order, node `"a"` holding the extra slot. -/
theorem C9_three_nodes :
    (ClusterState.mk ["a", "b", "c"] []).rebalance_slots.slot_map =
      [{ address := "a", slot_range := (0, 5461) },
       { address := "b", slot_range := (5462, 10922) },
       { address := "c", slot_range := (10923, 16383) }] ∧
    (ClusterState.mk ["a", "b", "c"] []).rebalance_slots.slot_map.map
      rangeCount = [5462, 5461, 5461] := by
  constructor <;> rfl

/-! ### Helper lemmas about the cluster topology -/

theorem strLe_iff (a b : String) : strLe a b = true ↔ a ≤ b := by
  simp [strLe]

theorem strLe_trans : ∀ (a b c : String), strLe a b → strLe b c → strLe a c := by
  intro a b c hab hbc
  rw [strLe_iff] at *
  exact le_trans hab hbc

theorem strLe_total : ∀ (a b : String), strLe a b || strLe b a := by
  intro a b
  rcases le_total a b with h | h <;> simp [strLe, h]

theorem nodes_sorted_mergeSort (l : List String) :
    (l.mergeSort strLe).Sorted (· ≤ ·) := by
  have h := List.sorted_mergeSort strLe_trans strLe_total l
  exact h.imp fun hab => (strLe_iff _ _).mp hab

theorem add_node_mem_eq (s : ClusterState) (a : String) (h : a ∈ s.nodes) :
    s.add_node a = s := by
  unfold ClusterState.add_node
  rw [if_pos h]

theorem add_node_nodes (s : ClusterState) (a : String) (h : a ∉ s.nodes) :
    (s.add_node a).nodes = (s.nodes ++ [a]).mergeSort strLe := by
  unfold ClusterState.add_node
  rw [if_neg h, rebalance_nodes]

theorem mem_add_node_self (s : ClusterState) (a : String) :
    a ∈ (s.add_node a).nodes := by
  by_cases h : a ∈ s.nodes
  · rw [add_node_mem_eq s a h]
    exact h
  · rw [add_node_nodes s a h, List.mem_mergeSort]
    simp

/-- **C6**: `add_node` is idempotent: adding the same address twice produces
the same topology (nodes and slot map) as adding it once; in particular,
adding an already-present address leaves the topology unchanged. -/
theorem C6_idempotent_join (s : ClusterState) (a : String) :
    (s.add_node a).add_node a = s.add_node a ∧
    (a ∈ s.nodes → s.add_node a = s) :=
  ⟨add_node_mem_eq (s.add_node a) a (mem_add_node_self s a),
   fun h => add_node_mem_eq s a h⟩

/-- Witness for C6 at a concrete topology containing the joined address. -/
theorem C6_idempotent_join_witness :
    ((ClusterState.new "a").add_node "a").add_node "a" =
        (ClusterState.new "a").add_node "a" ∧
      ("a" ∈ (ClusterState.new "a").nodes →
        (ClusterState.new "a").add_node "a" = ClusterState.new "a") :=
  C6_idempotent_join (ClusterState.new "a") "a"

/-- **C5**: every reachable `ClusterState` has a duplicate-free, ascending
node list, a slot map with exactly one entry per node in the same order,
a slot map empty exactly when the node list is empty, and — whenever the
node list is non-empty — range counts summing to 16384; `new` establishes
this and `add_node` preserves it. -/
theorem C5_topology_invariants (s : ClusterState) (h : ReachableCluster s) :
    s.nodes.Nodup ∧ s.nodes.Sorted (· ≤ ·) ∧
    s.slot_map.map NodeSlots.address = s.nodes ∧
    (s.slot_map = [] ↔ s.nodes = []) ∧
    (s.nodes ≠ [] → (s.slot_map.map rangeCount).sum = TOTAL_SLOTS) := by
  induction h with
  | base addr =>
    unfold ClusterState.new
    rw [rebalance_nodes]
    refine ⟨by simp, by simp, ?_, ?_, fun _ => ?_⟩
    · exact rebalance_map_address _
    · exact rebalance_slot_map_nil_iff _
    · exact rebalance_sum _ (by simp)
  | step s addr _ ih =>
    have ihnd := ih.1
    by_cases hmem : addr ∈ s.nodes
    · rw [add_node_mem_eq s addr hmem]
      exact ih
    · have hperm : List.Perm ((s.nodes ++ [addr]).mergeSort strLe)
          (s.nodes ++ [addr]) :=
        List.mergeSort_perm _ _
      have hndApp : (s.nodes ++ [addr]).Nodup := by
        rw [List.nodup_append]
        exact ⟨ihnd, List.nodup_singleton _, fun x hx hx2 => by
          simp at hx2
          subst hx2
          exact hmem hx⟩
      have hne : (s.nodes ++ [addr]).mergeSort strLe ≠ [] := by
        intro hcon
        have hl := hperm.length_eq
        rw [hcon] at hl
        simp at hl
      have heq : s.add_node addr =
          ClusterState.rebalance_slots
            { s with nodes := (s.nodes ++ [addr]).mergeSort strLe } := by
        unfold ClusterState.add_node
        rw [if_neg hmem]
      rw [heq, rebalance_nodes]
      refine ⟨hperm.nodup_iff.mpr hndApp, nodes_sorted_mergeSort _,
        ?_, ?_, fun _ => ?_⟩
      · exact rebalance_map_address _
      · exact rebalance_slot_map_nil_iff _
      · exact rebalance_sum _ hne

/-- Witness for C5: the state built by `ClusterState::new` at process
start with the default bind identity. -/
theorem C5_topology_invariants_witness :
    (ClusterState.new "10.0.0.1:6214").nodes.Nodup ∧
    (ClusterState.new "10.0.0.1:6214").nodes.Sorted (· ≤ ·) ∧
    (ClusterState.new "10.0.0.1:6214").slot_map.map NodeSlots.address =
      (ClusterState.new "10.0.0.1:6214").nodes ∧
    ((ClusterState.new "10.0.0.1:6214").slot_map = [] ↔
      (ClusterState.new "10.0.0.1:6214").nodes = []) ∧
    ((ClusterState.new "10.0.0.1:6214").nodes ≠ [] →
      ((ClusterState.new "10.0.0.1:6214").slot_map.map rangeCount).sum =
        TOTAL_SLOTS) :=
  C5_topology_invariants _ (ReachableCluster.base "10.0.0.1:6214")

/-! ### Helper lemmas about the cache store -/

theorem cacheGet_remove : ∀ (c : List (String × CacheEntry)) (k k' : String),
    cacheGet (cacheRemove c k) k' = if k' = k then none else cacheGet c k'
  | [], k, k' => by simp [cacheRemove, cacheGet]
  | (a, e) :: rest, k, k' => by
    have ih := cacheGet_remove rest k k'
    simp only [cacheRemove, cacheGet]
    by_cases hak : a = k <;> by_cases hk' : k' = k <;> by_cases hak' : a = k' <;>
      simp_all [cacheGet]

theorem cacheGet_insert (c : List (String × CacheEntry)) (k k' : String)
    (e : CacheEntry) :
    cacheGet (cacheInsert c k e) k' = if k = k' then some e else cacheGet c k' := by
  unfold cacheInsert
  rw [cacheGet]
  by_cases h : k = k'
  · rw [if_pos h, if_pos h]
  · rw [if_neg h, if_neg h, cacheGet_remove, if_neg (fun hh => h hh.symm)]

theorem cacheContains_eq_false (c : List (String × CacheEntry)) (k : String) :
    cacheContains c k = false ↔ cacheGet c k = none := by
  unfold cacheContains
  cases cacheGet c k <;> simp

theorem delLoop_true : ∀ (keys : List String) (c : List (String × CacheEntry)),
    (delLoop keys c true).2 = true
  | [], _ => rfl
  | k :: rest, c => by
    rw [delLoop]
    split
    · exact delLoop_true rest _
    · exact delLoop_true rest _

theorem delLoop_found : ∀ (keys : List String) (c : List (String × CacheEntry))
    (f : Bool),
    (delLoop keys c f).2 = (f || keys.any fun k => cacheContains c k)
  | [], c, f => by simp [delLoop]
  | k :: rest, c, f => by
    rw [delLoop, List.any_cons]
    cases h : cacheContains c k
    · rw [if_neg (by simp), delLoop_found rest c f]
      simp
    · rw [if_pos rfl]
      simp [delLoop_true]

theorem delLoop_unchanged : ∀ (keys : List String) (c : List (String × CacheEntry)),
    (delLoop keys c false).2 = false → (delLoop keys c false).1 = c
  | [], _, _ => rfl
  | k :: rest, c, h => by
    rw [delLoop] at h ⊢
    cases hc : cacheContains c k
    · rw [hc, if_neg (by simp)] at h
      rw [if_neg (by simp)]
      exact delLoop_unchanged rest c h
    · rw [hc, if_pos rfl, delLoop_true] at h
      exact absurd h (by simp)

theorem delLoop_get : ∀ (keys : List String) (c : List (String × CacheEntry))
    (f : Bool) (k : String),
    cacheGet (delLoop keys c f).1 k = if k ∈ keys then none else cacheGet c k
  | [], c, f, k => by simp [delLoop]
  | k0 :: rest, c, f, k => by
    rw [delLoop]
    cases hc : cacheContains c k0
    · rw [if_neg (by simp), delLoop_get rest c f k]
      by_cases hk : k ∈ rest
      · simp [hk]
      · by_cases hk0 : k = k0
        · subst hk0
          have hg : cacheGet c k = none := (cacheContains_eq_false c k).mp hc
          simp [hk, hg]
        · simp [hk, hk0]
    · rw [if_pos rfl, delLoop_get rest (cacheRemove c k0) true k]
      by_cases hk : k ∈ rest
      · simp [hk]
      · by_cases hk0 : k = k0
        · subst hk0
          simp [hk, cacheGet_remove]
        · simp [hk, hk0, cacheGet_remove]

/-! ### Helper lemmas about the command processor -/

theorem process_GET_snd (key : String) (s : ServerState) :
    (process_command (.GET key) s).2 = s := by
  rw [process_command]
  cases cacheGet s.cache key with
  | none => rfl
  | some entry =>
    cases hd : s.decompress_data entry.compressed_data <;> simp [hd]

theorem process_DEL_snd (keys : List String) (s : ServerState) :
    (process_command (.DEL keys) s).2 =
      { s with cache := (delLoop keys s.cache false).1 } := by
  simp only [process_command]
  split <;> rfl

theorem process_DEL_fst (keys : List String) (s : ServerState) :
    (process_command (.DEL keys) s).1 =
      if keys.any (fun k => cacheContains s.cache k) then .ok .Success
      else .error (.KeyNotFound "None of the keys found") := by
  have h := delLoop_found keys s.cache false
  rw [Bool.false_or] at h
  simp only [process_command]
  rw [h]
  split <;> rfl

theorem process_preserve_key (c : Command) (s : ServerState) (k : String)
    (h : writesKey k c = false) :
    cacheGet (process_command c s).2.cache k = cacheGet s.cache k := by
  cases c with
  | SET key value =>
    have hk : ¬ key = k := by simpa [writesKey] using h
    show cacheGet (cacheInsert s.cache key
      { compressed_data := zstdEncode value }) k = cacheGet s.cache k
    rw [cacheGet_insert, if_neg hk]
  | GET key => rw [process_GET_snd]
  | DEL keys =>
    have hk : ¬ k ∈ keys := by simpa [writesKey] using h
    rw [process_DEL_snd]
    show cacheGet (delLoop keys s.cache false).1 k = cacheGet s.cache k
    rw [delLoop_get, if_neg hk]
  | EXISTS key => rfl
  | CLUSTER_JOIN address => rfl
  | CLUSTER_SLOTS => rfl

theorem runCommands_preserve_key :
    ∀ (cmds : List Command) (s : ServerState) (k : String),
    (∀ c ∈ cmds, writesKey k c = false) →
    cacheGet (runCommands cmds s).cache k = cacheGet s.cache k
  | [], _, _, _ => rfl
  | c :: rest, s, k, h => by
    rw [runCommands,
      runCommands_preserve_key rest _ k
        (fun c2 hc2 => h c2 (List.mem_cons_of_mem _ hc2))]
    exact process_preserve_key c s k (h c (List.mem_cons_self _ _))

/-- **C2**: `DEL` removes each requested key that exists, succeeds exactly
when at least one requested key existed in the store, and fails with
`KeyNotFound` exactly when none of the requested keys existed. -/
theorem C2_delete_semantics (s : ServerState) (keys : List String) :
    ((process_command (.DEL keys) s).1 = .ok .Success ↔
      ∃ k ∈ keys, cacheContains s.cache k = true) ∧
    ((process_command (.DEL keys) s).1 =
        .error (.KeyNotFound "None of the keys found") ↔
      ∀ k ∈ keys, cacheContains s.cache k = false) ∧
    (∀ k ∈ keys, cacheGet (process_command (.DEL keys) s).2.cache k = none) ∧
    (∀ k, k ∉ keys →
      cacheGet (process_command (.DEL keys) s).2.cache k = cacheGet s.cache k) := by
  refine ⟨?_, ?_, ?_, ?_⟩
  · rw [process_DEL_fst]
    cases ha : keys.any (fun k => cacheContains s.cache k)
    · rw [if_neg (by simp)]
      constructor
      · intro h
        exact absurd h (by simp)
      · rintro ⟨k, hk, hck⟩
        exact absurd hck (by simpa using List.any_eq_false.mp ha k hk)
    · rw [if_pos rfl]
      constructor
      · intro _
        obtain ⟨k, hk, hck⟩ := List.any_eq_true.mp ha
        exact ⟨k, hk, hck⟩
      · intro _
        rfl
  · rw [process_DEL_fst]
    cases ha : keys.any (fun k => cacheContains s.cache k)
    · rw [if_neg (by simp)]
      constructor
      · intro _ k hk
        simpa using List.any_eq_false.mp ha k hk
      · intro _
        rfl
    · rw [if_pos rfl]
      constructor
      · intro h
        exact absurd h (by simp)
      · intro hall
        obtain ⟨k, hk, hck⟩ := List.any_eq_true.mp ha
        rw [hall k hk] at hck
        exact absurd hck (by simp)
  · intro k hk
    rw [process_DEL_snd]
    show cacheGet (delLoop keys s.cache false).1 k = none
    rw [delLoop_get, if_pos hk]
  · intro k hk
    rw [process_DEL_snd]
    show cacheGet (delLoop keys s.cache false).1 k = cacheGet s.cache k
    rw [delLoop_get, if_neg hk]

/-- **C3**: after a successful `SET k v`, `GET k` returns exactly `v`, and
keeps doing so after any sequence of commands containing no `SET` of `k` and
no `DEL` whose key list contains `k`. -/
theorem C3_write_then_read (s : ServerState) (k : String) (v : List Nat)
    (cmds : List Command) (h : ∀ c ∈ cmds, writesKey k c = false) :
    (process_command (.GET k)
        (runCommands cmds (process_command (.SET k v) s).2)).1 =
      .ok (.Data v) := by
  have h2 : cacheGet (process_command (.SET k v) s).2.cache k =
      some { compressed_data := zstdEncode v } := by
    show cacheGet (cacheInsert s.cache k { compressed_data := zstdEncode v }) k = _
    rw [cacheGet_insert, if_pos rfl]
  have h3 : cacheGet
      (runCommands cmds (process_command (.SET k v) s).2).cache k =
      some { compressed_data := zstdEncode v } :=
    (runCommands_preserve_key cmds _ k h).trans h2
  generalize hgen : runCommands cmds (process_command (.SET k v) s).2 = t at h3
  rw [process_command]
  simp only [h3, ServerState.decompress_data, zstdEncode, zstdDecode]

/-- Witness for C3: a fresh server, `SET "k" [1,2]`, six intervening
commands none of which writes `"k"`, then `GET "k"`. -/
theorem C3_write_then_read_witness :
    (∀ c ∈ ([Command.GET "k", Command.EXISTS "k", Command.SET "x" [9],
        Command.DEL ["x", "y"], Command.CLUSTER_JOIN "10.0.0.2:6214",
        Command.CLUSTER_SLOTS] : List Command), writesKey "k" c = false) ∧
    (process_command (.GET "k")
        (runCommands
          [Command.GET "k", Command.EXISTS "k", Command.SET "x" [9],
            Command.DEL ["x", "y"], Command.CLUSTER_JOIN "10.0.0.2:6214",
            Command.CLUSTER_SLOTS]
          (process_command (.SET "k" [1, 2])
            (ServerState.new "10.0.0.1:6214")).2)).1 =
      .ok (.Data [1, 2]) :=
  ⟨by decide,
    C3_write_then_read (ServerState.new "10.0.0.1:6214") "k" [1, 2] _ (by decide)⟩

/-- **C4**: decompressing the result of compressing any byte sequence yields
exactly that sequence, and neither function depends on (or can modify) the
server state: both are pure. -/
theorem C4_compression_roundtrip (s s2 : ServerState) (data : List Nat) :
    (s.compress_data data).bind s.decompress_data = .ok data ∧
    s.compress_data data = s2.compress_data data ∧
    s.decompress_data data = s2.decompress_data data := by
  refine ⟨?_, rfl, rfl⟩
  show s.decompress_data (zstdEncode data) = .ok data
  simp [ServerState.decompress_data, zstdEncode, zstdDecode]

/-- **C7**: whenever `process_command` returns a failure, the server state
(cache and cluster topology) after processing equals the state before — no
failure leaves a partial mutation. -/
theorem C7_failure_unchanged (cmd : Command) (s : ServerState) (e : ServerError)
    (h : (process_command cmd s).1 = .error e) :
    (process_command cmd s).2 = s := by
  cases cmd with
  | SET key value =>
    exact absurd h (by simp [process_command, ServerState.compress_data])
  | GET key => exact process_GET_snd key s
  | DEL keys =>
    rw [process_DEL_fst] at h
    have hany : keys.any (fun k => cacheContains s.cache k) = false := by
      cases hx : keys.any (fun k => cacheContains s.cache k)
      · rfl
      · rw [hx, if_pos rfl] at h
        exact absurd h (by simp)
    have hf : (delLoop keys s.cache false).2 = false := by
      rw [delLoop_found, hany]
      rfl
    rw [process_DEL_snd, delLoop_unchanged keys s.cache hf]
  | EXISTS key => rfl
  | CLUSTER_JOIN address =>
    exact absurd h (by simp [process_command])
  | CLUSTER_SLOTS => rfl

/-- Witness for C7: a `GET` miss on the freshly started server fails with
`KeyNotFound` and leaves the state unchanged. -/
theorem C7_failure_unchanged_witness :
    (process_command (.GET "missing") (ServerState.new "10.0.0.1:6214")).1 =
      .error (.KeyNotFound "missing") ∧
    (process_command (.GET "missing") (ServerState.new "10.0.0.1:6214")).2 =
      ServerState.new "10.0.0.1:6214" :=
  ⟨rfl, C7_failure_unchanged _ _ (.KeyNotFound "missing") rfl⟩

/-- **C8**: `EXISTS`, `CLUSTER_JOIN` and `CLUSTER_SLOTS` never fail: for every
state and argument they return `Exists(bool)`, `Success` and `Slots(text)`
respectively. -/
theorem C8_never_fail (s : ServerState) (key address : String) :
    (process_command (.EXISTS key) s).1 =
      .ok (.Exists (cacheContains s.cache key)) ∧
    (process_command (.CLUSTER_JOIN address) s).1 = .ok .Success ∧
    (process_command .CLUSTER_SLOTS s).1 =
      .ok (.Slots s.cluster.get_slots_json) :=
  ⟨rfl, rfl, rfl⟩

/-- **C10**: `DEL` with an empty key list always fails with `KeyNotFound`
("no key existed" holds vacuously), never returns `Success`, and leaves the
state unchanged. -/
theorem C10_empty_del (s : ServerState) :
    (process_command (.DEL []) s).1 =
      .error (.KeyNotFound "None of the keys found") ∧
    (process_command (.DEL []) s).2 = s ∧
    (process_command (.DEL []) s).1 ≠ .ok .Success := by
  refine ⟨rfl, rfl, fun h => ?_⟩
  rw [show (process_command (.DEL []) s).1 =
      .error (.KeyNotFound "None of the keys found") from rfl] at h
  exact Except.noConfusion h

end Pluto
